import Mathlib

/-!
Verification of the branch-consolidation and virtual-branch state-store engine.

The definitions below are a shallow embedding of two Rust source files:

* `crates/gitbutler-stack/src/state.rs` — the virtual-branch store
  (`VirtualBranches`, `VirtualBranchesHandle`): ordering normalization,
  `next_order_index` and `garbage_collect`.
* `crates/gitbutler-branch-actions/src/branch.rs` — branch listing:
  identity resolution, grouping, head selection and filtering.

File I/O (load whole document / atomic replace) is modelled by explicit state
passing over the document value; fallible operations return `Except` or carry
an explicit error component.  Machine integers are modelled as `Nat`/`Int`.
-/

set_option autoImplicit false
set_option maxRecDepth 8192

namespace GitButler

/-- Commit object id (git Oid), abstracted to a natural number. -/
abbrev Oid := Nat

/-- Stack / virtual-branch id, abstracted to a natural number. -/
abbrev StackId := Nat

/-- Modelled from the spec: a `Refname` (the virtual branch's source reference);
its branch-name extraction can fail (`branch()` returns an `Option`). The
`gitbutler-reference` crate is not under `src/`. -/
structure Refname where
  branch : Option String
deriving DecidableEq, Repr

/-- Modelled from the spec: a remote refname (the virtual branch's upstream);
its branch-name extraction is total. -/
structure RemoteRefname where
  branch : String
deriving DecidableEq, Repr

/-- Modelled from the spec: the `Stack` ("VirtualBranch") record, with the
serialized fields named in the spec: id, display name, head commit id,
optional source reference, optional upstream reference, workspace flag,
order index, last-updated timestamp (ms) and the optional pending-work
marker (`not_in_workspace_wip_change_id`).  The `gitbutler-stack` `stack.rs`
declaring it is not under `src/`. -/
structure Stack where
  id : StackId
  name : String
  head : Oid
  source_refname : Option Refname
  upstream : Option RemoteRefname
  in_workspace : Bool
  order : Nat
  updated_timestamp_ms : Nat
  not_in_workspace_wip_change_id : Option String
deriving DecidableEq, Repr

/-- Modelled from the spec: the integration `Target` — only the fields read by
the code under `src/` are kept: the target branch (a remote refname) and the
base commit id `sha`. -/
structure Target where
  branch : RemoteRefname
  sha : Oid
deriving DecidableEq, Repr

/-- The persisted `VirtualBranches` document (`state.rs`): optional default
target, legacy id→Target map, and the id→Stack map.  The two `HashMap`s are
modelled as association lists keyed by id. -/
structure VirtualBranches where
  default_target : Option Target
  branch_targets : List (StackId × Target)
  branches : List (StackId × Stack)
deriving DecidableEq, Repr

/-- Well-formedness of a document as maintained by the `HashMap<StackId, Stack>`:
keys are unique, and every entry is keyed by its stack's own id (the code only
ever inserts `branch.id -> branch`). -/
def DocWF (d : VirtualBranches) : Prop :=
  (d.branches.map (·.1)).Nodup ∧ ∀ p ∈ d.branches, p.2.id = p.1

instance (d : VirtualBranches) : Decidable (DocWF d) := by
  unfold DocWF; infer_instance

/-- `VirtualBranches::list_all_branches` / `VirtualBranchesHandle::list_all_branches`:
all values of the branches map. -/
def VirtualBranches.list_all_branches (d : VirtualBranches) : List Stack :=
  d.branches.map (·.2)

/-- `list_branches_in_workspace`: the branches with the workspace flag set. -/
def VirtualBranches.list_branches_in_workspace (d : VirtualBranches) : List Stack :=
  d.list_all_branches.filter (·.in_workspace)

/-- `HashMap::insert` on the association list: replace the entry with the same
key if present, otherwise append a fresh entry. -/
def insertEntry (bs : List (StackId × Stack)) (b : Stack) : List (StackId × Stack) :=
  if bs.any (fun p => p.1 == b.id) then
    bs.map (fun p => if p.1 == b.id then (b.id, b) else p)
  else
    bs ++ [(b.id, b)]

/-- `VirtualBranchesHandle::set_branch`: read the document, insert the branch
under its id, write the document back. -/
def set_branch (d : VirtualBranches) (b : Stack) : VirtualBranches :=
  { d with branches := insertEntry d.branches b }

/-- `VirtualBranchesHandle::get_default_target`: `none` models the NotFound
error. -/
def get_default_target (d : VirtualBranches) : Option Target :=
  d.default_target

/-- Lookup of a branch value by id (`try_branch`). -/
def findBranch (d : VirtualBranches) (k : StackId) : Option Stack :=
  (d.branches.find? (fun p => p.1 == k)).map (·.2)

/-- `VirtualBranchesHandle::delete_branch_entry`. -/
def delete_branch_entry (d : VirtualBranches) (k : StackId) : VirtualBranches :=
  { d with branches := d.branches.filter (fun p => !(p.1 == k)) }

/-- Sorting relation used by `sorted_by_key(|branch| branch.order)`. -/
def stackLE (a b : Stack) : Prop := a.order ≤ b.order

instance : DecidableRel stackLE :=
  fun a b => inferInstanceAs (Decidable (a.order ≤ b.order))

instance : IsTotal Stack stackLE := ⟨fun a b => Nat.le_total a.order b.order⟩

instance : IsTrans Stack stackLE := ⟨fun _ _ _ => Nat.le_trans⟩

/-- The stable sort `iter().sorted_by_key(|branch| branch.order)`; a stable
sort is uniquely determined by the key, so insertion sort (stable) embeds it. -/
def sorted_by_order (l : List Stack) : List Stack :=
  List.insertionSort stackLE l

/-- One step of `update_ordering`'s enumerate-and-persist loop: set the
branch's order to its index in the sorted snapshot and write it back. -/
def applyOrder (acc : VirtualBranches) (p : Nat × Stack) : VirtualBranches :=
  set_branch acc { p.2 with order := p.1 }

/-- `VirtualBranchesHandle::update_ordering`: load the in-workspace branches,
stable-sort by current order, reassign dense indices 0..n−1 in sorted
position, persisting each updated entry (here: all writes succeed). -/
def update_ordering (d : VirtualBranches) : VirtualBranches :=
  ((sorted_by_order d.list_branches_in_workspace).enum).foldl applyOrder d

/-- `VirtualBranchesHandle::next_order_index`: run `update_ordering`, then
return one past the order of the last branch in sorted order (0 if none).
The second component is the resulting persisted document. -/
def next_order_index (d : VirtualBranches) : Nat × VirtualBranches :=
  let d1 := update_ordering d
  let order :=
    match (sorted_by_order d1.list_branches_in_workspace).getLast? with
    | none => 0
    | some b => b.order + 1
  (order, d1)

/-- Commit metadata reachable through `git2::Repository::find_commit`. -/
structure Author where
  name : Option String
  email : Option String
deriving DecidableEq, Repr

/-- Commit data used by the listing: author signature and commit time
(seconds, i64). -/
structure CommitInfo where
  timeSeconds : Int
  author : Author
deriving DecidableEq, Repr

/-- The external repository (read-only collaborator): resolvable commits,
remote names, `branch_remote_name` resolution and merge-base computation.
Failure of an external call is an `Option.none` result. -/
structure Repo where
  remotes : List String
  commits : List (Oid × CommitInfo)
  branch_remote_name : String → Option String
  mergeBase : Oid → Oid → Option Oid

/-- `repo.find_commit`: `none` models the error case. -/
def Repo.findCommit (r : Repo) (oid : Oid) : Option CommitInfo :=
  (r.commits.find? (fun p => p.1 == oid)).map (·.2)

/-- Error cases of `garbage_collect` that surface to the caller. -/
inductive GcError where
  | noDefaultTarget
  | mergeBaseFailed
deriving DecidableEq, Repr

/-- The removal-candidate loop of `garbage_collect` over the not-in-workspace
branches: skip branches with a pending-work (WIP) marker, mark branches whose
head cannot be resolved, otherwise mark those whose head equals
merge-base(head, target.sha); a merge-base failure aborts the whole call. -/
def gcLoop (repo : Repo) (target : Target) : List Stack → Except GcError (List StackId)
  | [] => Except.ok []
  | b :: rest =>
    if b.not_in_workspace_wip_change_id.isSome then
      gcLoop repo target rest
    else if (repo.findCommit b.head).isNone then
      (gcLoop repo target rest).map (b.id :: ·)
    else
      match repo.mergeBase b.head target.sha with
      | none => Except.error GcError.mergeBaseFailed
      | some mb =>
        if b.head == mb then (gcLoop repo target rest).map (b.id :: ·)
        else gcLoop repo target rest

/-- `VirtualBranchesHandle::garbage_collect`.  The result is the final
persisted document, the number of `write_file` calls performed, and the
error (if any); on an error the original document is returned unchanged. -/
def garbage_collect (repo : Repo) (d : VirtualBranches) :
    VirtualBranches × Nat × Option GcError :=
  match get_default_target d with
  | none => (d, 0, some GcError.noDefaultTarget)
  | some target =>
    match gcLoop repo target (d.list_all_branches.filter (fun b => !b.in_workspace)) with
    | Except.error e => (d, 0, some e)
    | Except.ok to_remove =>
      if to_remove.isEmpty then (d, 0, none)
      else
        ({ d with branches := d.branches.filter (fun p => !(to_remove.contains p.1)) }, 1, none)

/-! Embedding of `crates/gitbutler-branch-actions/src/branch.rs`. -/

/-- A native git reference as seen by the listing code: its (short) name, and
the result of `peel_to_commit` (`none` on failure). -/
structure GitBranch where
  name : Option String
  head : Option Oid
deriving DecidableEq, Repr

/-- A sum type of branch that can be a plain git branch or a virtual branch
(`GroupBranch` in `branch.rs`). -/
inductive GroupBranch where
  | Local (b : GitBranch)
  | Remote (b : GitBranch)
  | Virtual (vb : Stack)
deriving DecidableEq, Repr

/-- Modelled from the spec: `ReferenceExt::given_name` (the `gitbutler-branch`
crate is not under `src/`) — the reference's display name with any
remote-tracking remote name stripped (`origin/feature` → `feature`); fails
when no name can be derived. -/
def givenNameOf (remotes : List String) (b : GitBranch) : Option String :=
  b.name.bind fun n =>
    match remotes.find? (fun r => n.toList.take (r.toList.length + 1) == r.toList ++ ['/']) with
    | some r => some (String.mk (n.toList.drop (r.toList.length + 1)))
    | none => some n

/-- Modelled from the spec: `normalize_branch_name` (the `gitbutler-reference`
crate is not under `src/`) — invalid characters are rejected/rewritten and the
normalization fails when the result reduces to empty. -/
def normalize_branch_name (name : String) : Option String :=
  let cleaned := name.toList.filter fun c =>
    c.isAlphanum || c == '-' || c == '_' || c == '/' || c == '.'
  if cleaned.isEmpty then none else some (String.mk cleaned)

/-- `GroupBranch::identity`: local/remote refs use the tracking-stripped given
name; a virtual branch derives its identity from the source refname, the
upstream, or the normalized display name, in that order — with the
normalization applied (and able to abort the whole computation) first. -/
def GroupBranch.identity (remotes : List String) : GroupBranch → Option String
  | .Local b => givenNameOf remotes b
  | .Remote b => givenNameOf remotes b
  | .Virtual vb =>
    let name_from_source := vb.source_refname.bind (fun n => n.branch)
    let name_from_upstream := vb.upstream.map (fun n => n.branch)
    match normalize_branch_name vb.name with
    | none => none
    | some rich_name =>
      some (name_from_source.getD (name_from_upstream.getD rich_name))

/-- `should_list_git_branch`: the fixed denylist of technical identities. -/
def should_list_git_branch (identity : String) : Bool :=
  !(["gitbutler/integration", "gitbutler/target", "gitbutler/oplog", "HEAD"].contains identity)

/-- Reference to an associated virtual branch in a listing entry. -/
structure VirtualBranchReference where
  given_name : String
  id : StackId
  in_workspace : Bool
deriving DecidableEq, Repr

/-- A produced listing entry (`BranchListing`). -/
structure BranchListing where
  name : String
  remotes : List String
  virtual_branch : Option VirtualBranchReference
  updated_at : Nat
  last_commiter : Author
  has_local : Bool
  head : Oid
deriving DecidableEq, Repr

/-- The listing filter; the Rust field `local` is `local_` here (`local` is a
Lean keyword). -/
structure BranchListingFilter where
  local_ : Option Bool
  applied : Option Bool
deriving DecidableEq, Repr

/-- `matches_all`: build the list of filter conditions (applied first, then
local, exactly as pushed in the source) and require all of them. -/
def matches_all (branch : BranchListing) (filter : BranchListingFilter) : Bool :=
  let conditions :=
    (match filter.applied with
     | some applied =>
       [match branch.virtual_branch with
        | some vb => applied == vb.in_workspace
        | none => !applied]
     | none => []) ++
    (match filter.local_ with
     | some l =>
       [(branch.has_local || branch.virtual_branch.isSome) && l]
     | none => [])
  conditions.all id

/-- Retention applied by `list_branches`: no filter retains everything,
otherwise `matches_all` decides. -/
def retainedByFilter (branch : BranchListing) (filter : Option BranchListingFilter) : Bool :=
  !filter.isSome || matches_all branch (filter.getD ⟨none, none⟩)

/-- Sorting relation for picking among several same-identity virtual branches
(`sort_by_key(|virtual_branch| virtual_branch.updated_timestamp_ms)`). -/
def tsLE (a b : Stack) : Prop := a.updated_timestamp_ms ≤ b.updated_timestamp_ms

instance : DecidableRel tsLE :=
  fun a b => inferInstanceAs (Decidable (a.updated_timestamp_ms ≤ b.updated_timestamp_ms))

/-- The virtual branches of a group. -/
def vbranchesOf (group_branches : List GroupBranch) : List Stack :=
  group_branches.filterMap (fun b => match b with | .Virtual vb => some vb | _ => none)

/-- Selection of at most one virtual branch per group: with more than one,
stable-sort by last-updated timestamp and take the last (greatest). -/
def selectVirtual (group_branches : List GroupBranch) : Option Stack :=
  let vbranches := vbranchesOf group_branches
  if vbranches.length > 1 then (List.insertionSort tsLE vbranches).getLast?
  else vbranches.head?

/-- The remote-tracking references of a group. -/
def remoteRefsOf (group_branches : List GroupBranch) : List GitBranch :=
  group_branches.filterMap (fun b => match b with | .Remote gb => some gb | _ => none)

/-- The local references of a group. -/
def localRefsOf (group_branches : List GroupBranch) : List GitBranch :=
  group_branches.filterMap (fun b => match b with | .Local gb => some gb | _ => none)

/-- The head-of-interest chain of `branch_group_to_branch`: the virtual
branch's head if present, else the first local reference's resolved head,
else the first remote reference's resolved head. -/
def headOfGroup (virtual_branch : Option Stack)
    (local_branches remote_branches : List GitBranch) : Option Oid :=
  match virtual_branch with
  | some vbranch => some vbranch.head
  | none =>
    match local_branches.head? with
    | some b => b.head
    | none =>
      match remote_branches.head? with
      | some b => b.head
      | none => none

/-- Errors dropped (logged) per group by `combine_branches`. -/
inductive GroupError where
  | noValidReference
  | commitNotFound
deriving DecidableEq, Repr

/-- `branch_group_to_branch`: convert one same-identity group into at most one
listing entry; `ok none` is the silent target-branch exclusion, errors are
per-group failures that the caller drops. -/
def branch_group_to_branch (identity : String) (group_branches : List GroupBranch)
    (repo : Repo) (target : Target) : Except GroupError (Option BranchListing) :=
  let virtual_branch := selectVirtual group_branches
  let remote_branches := remoteRefsOf group_branches
  let local_branches := localRefsOf group_branches
  if virtual_branch.isNone &&
      local_branches.any (fun b => givenNameOf repo.remotes b == some target.branch.branch) then
    Except.ok none
  else
    let virtual_branch_reference := virtual_branch.map (fun b =>
      { given_name := b.name, id := b.id, in_workspace := b.in_workspace :
          VirtualBranchReference })
    let remotes := remote_branches.foldl (fun acc b =>
      match b.name with
      | some n =>
        match repo.branch_remote_name n with
        | some remote_name => acc ++ [remote_name]
        | none => acc
      | none => acc) []
    let has_local := !local_branches.isEmpty
    match headOfGroup virtual_branch local_branches remote_branches with
    | none => Except.error GroupError.noValidReference
    | some head =>
      match repo.findCommit head with
      | none => Except.error GroupError.commitNotFound
      | some head_commit =>
        let last_modified_ms :=
          max (((head_commit.timeSeconds * 1000).emod (2 ^ 128)).toNat)
            (match virtual_branch with | none => 0 | some x => x.updated_timestamp_ms)
        Except.ok (some
          { name := identity
            remotes := remotes
            virtual_branch := virtual_branch_reference
            updated_at := last_modified_ms
            last_commiter := head_commit.author
            has_local := has_local
            head := head })

/-- Insertion into the identity-keyed group map
(`groups.entry(identity).or_default().push(branch)`). -/
def addToGroups (gs : List (String × List GroupBranch)) (identity : String)
    (b : GroupBranch) : List (String × List GroupBranch) :=
  if gs.any (fun p => p.1 == identity) then
    gs.map (fun p => if p.1 == identity then (p.1, p.2 ++ [b]) else p)
  else
    gs ++ [(identity, [b])]

/-- The grouping loop of `combine_branches`: compute each entity's identity,
drop entities without identity or with a denylisted identity, and group the
rest by identity. -/
def groupsOf (remotes : List String) (group_branches : List GroupBranch) :
    List (String × List GroupBranch) :=
  group_branches.foldl (fun gs b =>
    match b.identity remotes with
    | none => gs
    | some identity =>
      if should_list_git_branch identity then addToGroups gs identity b
      else gs) []

/-- `combine_branches`: group by identity and convert each group, dropping
(not failing on) groups that produce no entry. -/
def combine_branches (group_branches : List GroupBranch) (repo : Repo)
    (target_branch : Target) : List BranchListing :=
  (groupsOf repo.remotes group_branches).filterMap (fun p =>
    match branch_group_to_branch p.1 p.2 repo target_branch with
    | Except.ok entry => entry
    | Except.error _ => none)

/-! Concrete fixtures used by witnesses and counterexamples. -/

/-- A sample commit author. -/
def authA : Author := ⟨some "alice", some "alice@example.com"⟩

/-- A sample commit. -/
def cInfoA : CommitInfo := ⟨0, authA⟩

/-- A listing entry with no local reference and no virtual branch. -/
def entryC3 : BranchListing := ⟨"feat", [], none, 0, authA, false, 7⟩

/-- Repository for the remote-only target-name scenario: a single remote
`origin` and one resolvable commit `5`. -/
def repoC4 : Repo := ⟨["origin"], [(5, cInfoA)], fun _ => none, fun _ _ => none⟩

/-- Default target whose branch name is `main`. -/
def targetC4 : Target := ⟨⟨"main"⟩, 5⟩

/-- A single remote-tracking reference `origin/main` (identity `main`). -/
def bsC4 : List GroupBranch := [GroupBranch.Remote ⟨some "origin/main", some 5⟩]

/-- The entry the remote-only `main` group produces. -/
def entryC4 : BranchListing := ⟨"main", [], none, 0, authA, false, 5⟩

/-- A virtual branch with a source refname set but an empty display name
(whose normalization fails). -/
def vbC5 : Stack := ⟨1, "", 0, some ⟨some "feat"⟩, none, true, 0, 0, none⟩

/-- A virtual branch with a source refname set and a normalizable name. -/
def vbW5 : Stack := ⟨2, "x", 0, some ⟨some "s"⟩, none, true, 0, 0, none⟩

/-- Repository for the remotes-collection scenario: `branch_remote_name`
resolves the remote-tracking ref `origin/feature` to remote `origin`. -/
def repoC6 : Repo :=
  ⟨["origin"], [(5, cInfoA)],
    fun n => if n = "origin/feature" then some "origin" else none,
    fun _ _ => none⟩

/-- Default target for the remotes-collection scenario. -/
def targetC6 : Target := ⟨⟨"main"⟩, 5⟩

/-- A group holding only the remote-tracking reference `origin/feature`. -/
def groupC6 : List GroupBranch := [GroupBranch.Remote ⟨some "origin/feature", some 5⟩]

/-- The entry produced for `groupC6`: its `remotes` came from the
remote-tracking reference even though the group has no local reference. -/
def entryC6 : BranchListing := ⟨"feature", ["origin"], none, 0, authA, false, 5⟩

/-- A listing entry with a virtual branch applied in the workspace. -/
def eW9 : BranchListing := ⟨"w", [], some ⟨"w", 3, true⟩, 0, authA, true, 1⟩

/-- An empty document (no branches, a default target set). -/
def dW8e : VirtualBranches := ⟨some targetC4, [], []⟩

/-- A document with three in-workspace branches of orders 0, 1, 2. -/
def dW8t : VirtualBranches :=
  ⟨some targetC4, [],
    [(1, ⟨1, "a", 1, none, none, true, 0, 0, none⟩),
     (2, ⟨2, "b", 2, none, none, true, 1, 0, none⟩),
     (3, ⟨3, "c", 3, none, none, true, 2, 0, none⟩)]⟩

/-- The virtual branch of the head-priority witness group. -/
def vbW2 : Stack := ⟨7, "feature", 9, none, none, true, 0, 5, none⟩

/-- A group holding a local reference and a virtual branch of the same
identity, with different heads. -/
def groupW2 : List GroupBranch :=
  [GroupBranch.Local ⟨some "feature", some 3⟩, GroupBranch.Virtual vbW2]

/-- Repository for the head-priority witness. -/
def repoW2 : Repo := ⟨[], [(3, cInfoA), (9, cInfoA)], fun _ => none, fun _ _ => none⟩

/-- Target for the head-priority witness. -/
def targetW2 : Target := ⟨⟨"main"⟩, 3⟩

/-- The entry produced for `groupW2`: its head is the virtual branch's. -/
def entryW2 : BranchListing := ⟨"feature", [], some ⟨"feature", 7, true⟩, 5, authA, true, 9⟩

/-- The applied-filter predicate of the claim: with a virtual branch compare
its workspace flag, without one match only the value `false`. -/
def appliedMatches (e : BranchListing) (v : Bool) : Prop :=
  match e.virtual_branch with
  | some vb => vb.in_workspace = v
  | none => v = false

/-- The removal condition of the claim, for a branch already known not to be
in the workspace: no pending-work marker, and an unresolvable head or a head
equal to merge-base(head, target.sha). -/
def gcRemovable (repo : Repo) (t : Target) (b : Stack) : Prop :=
  b.not_in_workspace_wip_change_id = none ∧
  (repo.findCommit b.head = none ∨ repo.mergeBase b.head t.sha = some b.head)

/-- A branch qualifies for garbage collection: it is not in the workspace and
satisfies the removal condition. -/
def gcQualifies (repo : Repo) (t : Target) (b : Stack) : Prop :=
  b.in_workspace = false ∧ gcRemovable repo t b

instance (repo : Repo) (t : Target) (b : Stack) : Decidable (gcRemovable repo t b) := by
  unfold gcRemovable; infer_instance

instance (repo : Repo) (t : Target) (b : Stack) : Decidable (gcQualifies repo t b) := by
  unfold gcQualifies; infer_instance

/-- Document for the ordering witness: in-workspace orders 5, 3, 3 (a tie)
plus one branch outside the workspace. -/
def dW7 : VirtualBranches :=
  ⟨some targetC4, [],
    [(1, ⟨1, "b1", 1, none, none, true, 5, 0, none⟩),
     (2, ⟨2, "b2", 2, none, none, true, 3, 0, none⟩),
     (3, ⟨3, "b3", 3, none, none, true, 3, 0, none⟩),
     (4, ⟨4, "b4", 4, none, none, false, 9, 0, none⟩)]⟩

/-- Repository for the garbage-collection witness: commits 1 and 2 resolve,
merge-base is the minimum. -/
def repoW1 : Repo :=
  ⟨[], [(1, cInfoA), (2, cInfoA)], fun _ => none, fun a b => some (min a b)⟩

/-- Target for the garbage-collection witness (sha 1). -/
def tW1 : Target := ⟨⟨"main"⟩, 1⟩

/-- The pending-work branch of the garbage-collection witness: not in the
workspace and with an unresolvable head, but carrying a WIP marker. -/
def bW1 : Stack := ⟨1, "w1", 9, none, none, false, 0, 0, some "wip"⟩

/-- Document for the garbage-collection witness: id 1 carries a pending-work
marker with an unresolvable head, id 2 has an unresolvable head, id 3 sits at
the merge base, id 4 is in the workspace, id 5 carries commits of its own. -/
def dW1 : VirtualBranches :=
  ⟨some tW1, [],
    [(1, ⟨1, "w1", 9, none, none, false, 0, 0, some "wip"⟩),
     (2, ⟨2, "w2", 9, none, none, false, 1, 0, none⟩),
     (3, ⟨3, "w3", 1, none, none, false, 2, 0, none⟩),
     (4, ⟨4, "w4", 9, none, none, true, 3, 0, none⟩),
     (5, ⟨5, "w5", 2, none, none, false, 4, 0, none⟩)]⟩

/-- The document after garbage-collecting `dW1`: ids 2 and 3 removed. -/
def dW1' : VirtualBranches :=
  ⟨some tW1, [],
    [(1, ⟨1, "w1", 9, none, none, false, 0, 0, some "wip"⟩),
     (4, ⟨4, "w4", 9, none, none, true, 3, 0, none⟩),
     (5, ⟨5, "w5", 2, none, none, false, 4, 0, none⟩)]⟩

/-- Document for the single-write witness: nothing qualifies for removal. -/
def dW10 : VirtualBranches :=
  ⟨some tW1, [],
    [(1, ⟨1, "v1", 1, none, none, true, 0, 0, none⟩),
     (2, ⟨2, "v2", 9, none, none, false, 1, 0, some "wip"⟩)]⟩

/-! Theorems. -/

/-- Claim C9: for a filter with `applied` set to `v` (and no `local`
constraint), an entry is retained iff its virtual branch's workspace flag
equals `v`, or it has no virtual branch and `v` is `false`; for any filter
with `applied` set, retention implies that same predicate. -/
theorem c9_applied_filter (e : BranchListing) (v : Bool) :
    (retainedByFilter e (some ⟨none, some v⟩) = true ↔ appliedMatches e v) ∧
    (∀ lf, retainedByFilter e (some ⟨lf, some v⟩) = true → appliedMatches e v) := by
  constructor
  · cases hvb : e.virtual_branch with
    | none => cases v <;> simp [retainedByFilter, matches_all, appliedMatches, hvb]
    | some vb =>
      cases v <;> cases hwb : vb.in_workspace <;>
        simp [retainedByFilter, matches_all, appliedMatches, hvb, hwb]
  · intro lf
    cases lf with
    | none =>
      cases hvb : e.virtual_branch with
      | none => cases v <;> simp [retainedByFilter, matches_all, appliedMatches, hvb]
      | some vb =>
        cases v <;> cases hwb : vb.in_workspace <;>
          simp [retainedByFilter, matches_all, appliedMatches, hvb, hwb]
    | some l =>
      cases hvb : e.virtual_branch with
      | none => cases v <;> simp [retainedByFilter, matches_all, appliedMatches, hvb]
      | some vb =>
        cases v <;> cases hwb : vb.in_workspace <;>
          simp [retainedByFilter, matches_all, appliedMatches, hvb, hwb]

/-- Witness for C9: a concrete workspace entry is retained by
`applied = true`, so the predicate holds at it. -/
theorem c9_witness : appliedMatches eW9 true :=
  (c9_applied_filter eW9 true).1.mp (by decide)

/-- Claim C3 (failing evaluation): the entry has neither a local reference
nor a virtual branch, so with `local = false` the claim retains it, but
`matches_all` pushes `(has_local || virtual_branch.isSome) && local`, which
is `false` whenever `local = false` — the entry is dropped. -/
theorem c3_local_filter_eval :
    entryC3.has_local = false ∧ entryC3.virtual_branch = none ∧
    retainedByFilter entryC3 (some ⟨some false, none⟩) = false := by
  decide

/-- Claim C4 (counterexample): a remote-only group whose identity equals the
default target's branch name, with no virtual branch, does appear in the
produced listing — the exclusion only inspects local references. -/
theorem c4_counterexample :
    combine_branches bsC4 repoC4 targetC4 = [entryC4] ∧
    entryC4.name = targetC4.branch.branch ∧ entryC4.virtual_branch = none :=
  ⟨rfl, rfl, rfl⟩

/-- Claim C4 (amended): an entry without a virtual branch can only come from
a group none of whose local references' given names equal the default
target's branch name; remote-only groups with that identity are not
excluded. -/
theorem c4_amended (bs : List GroupBranch) (repo : Repo) (t : Target)
    (e : BranchListing) (h : e ∈ combine_branches bs repo t)
    (hvb : e.virtual_branch = none) :
    ∃ p ∈ groupsOf repo.remotes bs,
      branch_group_to_branch p.1 p.2 repo t = Except.ok (some e) ∧
      ∀ lb ∈ localRefsOf p.2, givenNameOf repo.remotes lb ≠ some t.branch.branch := by
  rw [combine_branches, List.mem_filterMap] at h
  rcases h with ⟨p, hp, hfp⟩
  have hok : branch_group_to_branch p.1 p.2 repo t = Except.ok (some e) := by
    revert hfp
    cases hr : branch_group_to_branch p.1 p.2 repo t with
    | error err => intro hfp; cases hfp
    | ok o => intro hfp; cases hfp; rfl
  refine ⟨p, hp, hok, ?_⟩
  rw [branch_group_to_branch] at hok
  split at hok
  · simp at hok
  · rename_i hguard
    split at hok
    · simp at hok
    · split at hok
      · simp at hok
      · rename_i o1 mb hmb o2 ci hci
        simp only [Except.ok.injEq, Option.some.injEq] at hok
        rw [← hok] at hvb
        have hsel : selectVirtual p.2 = none := by
          simpa using hvb
        have hany : (localRefsOf p.2).any
            (fun b => givenNameOf repo.remotes b == some t.branch.branch) = false := by
          cases hval : (localRefsOf p.2).any
              (fun b => givenNameOf repo.remotes b == some t.branch.branch) with
          | false => rfl
          | true =>
            exfalso
            exact hguard (by rw [hsel, hval]; rfl)
        intro lb hlb hcontra
        have := List.any_eq_false.mp hany lb hlb
        exact this (by rw [hcontra]; simp)

/-- Witness for C4 (amended): applying the amended statement to the concrete
remote-only `main` listing yields its (exclusion-free) group. -/
theorem c4_witness :
    ∃ p ∈ groupsOf repoC4.remotes bsC4,
      branch_group_to_branch p.1 p.2 repoC4 targetC4 = Except.ok (some entryC4) ∧
      ∀ lb ∈ localRefsOf p.2,
        givenNameOf repoC4.remotes lb ≠ some targetC4.branch.branch :=
  c4_amended bsC4 repoC4 targetC4 entryC4
    (by rw [show combine_branches bsC4 repoC4 targetC4 = [entryC4] from rfl]
        exact List.mem_singleton_self _)
    rfl

/-- Claim C5 (counterexample): the virtual branch has a source refname
carrying branch name `feat`, yet its identity is `none` because the display
name's normalization fails and aborts the whole computation first. -/
theorem c5_counterexample :
    vbC5.source_refname = some ⟨some "feat"⟩ ∧
    GroupBranch.identity [] (GroupBranch.Virtual vbC5) = none := by
  decide

/-- Claim C5 (amended): a virtual branch's identity is the source refname's
branch name if set, else the upstream's branch name, else the normalized
display name — but the computation fails whenever the display name's
normalization fails, even when a source refname is set. -/
theorem c5_amended (remotes : List String) (vb : Stack) :
    (normalize_branch_name vb.name = none →
      GroupBranch.identity remotes (GroupBranch.Virtual vb) = none) ∧
    (∀ rich b, normalize_branch_name vb.name = some rich →
      vb.source_refname.bind (fun n => n.branch) = some b →
      GroupBranch.identity remotes (GroupBranch.Virtual vb) = some b) ∧
    (∀ rich u, normalize_branch_name vb.name = some rich →
      vb.source_refname.bind (fun n => n.branch) = none →
      vb.upstream = some u →
      GroupBranch.identity remotes (GroupBranch.Virtual vb) = some u.branch) ∧
    (∀ rich, normalize_branch_name vb.name = some rich →
      vb.source_refname.bind (fun n => n.branch) = none →
      vb.upstream = none →
      GroupBranch.identity remotes (GroupBranch.Virtual vb) = some rich) := by
  refine ⟨fun hn => ?_, fun rich b hn hs => ?_, fun rich u hn hs hu => ?_,
    fun rich hn hs hu => ?_⟩
  · simp [GroupBranch.identity, hn]
  · simp [GroupBranch.identity, hn, hs]
  · simp [GroupBranch.identity, hn, hs, hu]
  · simp [GroupBranch.identity, hn, hs, hu]

/-- Witness for C5 (amended): with a normalizable display name the identity
is taken from the source refname. -/
theorem c5_witness :
    GroupBranch.identity [] (GroupBranch.Virtual vbW5) = some "s" :=
  (c5_amended [] vbW5).2.1 "x" "s" (by decide) (by decide)

/-- Claim C6 (failing evaluation): a group with only a remote-tracking
reference and no local reference produces an entry whose `remotes` is
`["origin"]` — the remote names are collected from the group's
remote-tracking references, not from local references with an upstream. -/
theorem c6_remotes_eval :
    localRefsOf groupC6 = [] ∧
    branch_group_to_branch "feature" groupC6 repoC6 targetC6 =
      Except.ok (some entryC6) ∧
    entryC6.remotes = ["origin"] :=
  ⟨rfl, rfl, rfl⟩

/-- In a list sorted by order, every element's order is at most the last
element's order. -/
theorem sortedStack_le_getLast {l : List Stack} (hs : l.Sorted stackLE) (hne : l ≠ []) :
    ∀ b ∈ l, stackLE b (l.getLast hne) := by
  induction l with
  | nil => exact absurd rfl hne
  | cons a t ih =>
    intro b hb
    rcases List.mem_cons.mp hb with rfl | hbt
    · cases t with
      | nil => simp [List.getLast, stackLE]
      | cons c t' =>
        rw [List.getLast_cons (List.cons_ne_nil c t')]
        exact List.rel_of_sorted_cons hs _ (List.getLast_mem _)
    · cases t with
      | nil => simp at hbt
      | cons c t' =>
        rw [List.getLast_cons (List.cons_ne_nil c t')]
        exact ih hs.of_cons (List.cons_ne_nil c t') b hbt

/-- Claim C8: `next_order_index` first runs `update_ordering` (its resulting
document is the normalized one), then returns 0 when no branch is in the
workspace and otherwise one greater than the maximum order among the
in-workspace branches. -/
theorem c8_next_order_index (d : VirtualBranches) :
    (next_order_index d).2 = update_ordering d ∧
    ((update_ordering d).list_branches_in_workspace = [] → (next_order_index d).1 = 0) ∧
    (∀ b ∈ (update_ordering d).list_branches_in_workspace,
      b.order < (next_order_index d).1) ∧
    (∀ b ∈ (update_ordering d).list_branches_in_workspace,
      ∃ m ∈ (update_ordering d).list_branches_in_workspace,
        (next_order_index d).1 = m.order + 1) := by
  have hs : ((update_ordering d).list_branches_in_workspace.insertionSort stackLE).Sorted
       stackLE := List.sorted_insertionSort stackLE _
  refine ⟨rfl, fun hnil => ?_, fun b hb => ?_, fun b hb => ?_⟩
  · simp [next_order_index, sorted_by_order, hnil]
  · have hbu : b ∈ (update_ordering d).list_branches_in_workspace.insertionSort stackLE :=
      (List.mem_insertionSort stackLE).mpr hb
    have hne : (update_ordering d).list_branches_in_workspace.insertionSort stackLE ≠ [] :=
      List.ne_nil_of_mem hbu
    have hle := sortedStack_le_getLast hs hne b hbu
    have hval : (next_order_index d).1 =
        (((update_ordering d).list_branches_in_workspace.insertionSort stackLE).getLast hne).order
          + 1 := by
      simp [next_order_index, sorted_by_order, List.getLast?_eq_getLast _ hne]
    rw [hval]
    exact Nat.lt_succ_of_le hle
  · have hbu : b ∈ (update_ordering d).list_branches_in_workspace.insertionSort stackLE :=
      (List.mem_insertionSort stackLE).mpr hb
    have hne : (update_ordering d).list_branches_in_workspace.insertionSort stackLE ≠ [] :=
      List.ne_nil_of_mem hbu
    refine ⟨((update_ordering d).list_branches_in_workspace.insertionSort stackLE).getLast hne,
      (List.mem_insertionSort stackLE).mp (List.getLast_mem hne), ?_⟩
    simp [next_order_index, sorted_by_order, List.getLast?_eq_getLast _ hne]

/-- Witness for C8: on the empty in-workspace set the next order index is 0;
after three in-workspace branches with orders 0, 1, 2 it is 3. -/
theorem c8_witness : (next_order_index dW8e).1 = 0 ∧ (next_order_index dW8t).1 = 3 :=
  ⟨(c8_next_order_index dW8e).2.1 (by decide), by decide⟩

/-- Claim C2: for every produced entry the head is selected with strict
priority (virtual branch's head, else the first local reference's resolved
head, else the first remote reference's resolved head); a group whose
selected head does not resolve produces no entry; and membership in the
overall listing is decided group by group, so dropped groups do not abort
the other groups. -/
theorem c2_head_priority (identity : String) (g : List GroupBranch) (repo : Repo)
    (t : Target) :
    (∀ e, branch_group_to_branch identity g repo t = Except.ok (some e) →
      (∀ vb, selectVirtual g = some vb → e.head = vb.head) ∧
      (selectVirtual g = none →
        ∀ lb, (localRefsOf g).head? = some lb → lb.head = some e.head) ∧
      (selectVirtual g = none → localRefsOf g = [] →
        ∀ rb, (remoteRefsOf g).head? = some rb → rb.head = some e.head)) ∧
    ((headOfGroup (selectVirtual g) (localRefsOf g) (remoteRefsOf g) = none ∨
      (∃ hd, headOfGroup (selectVirtual g) (localRefsOf g) (remoteRefsOf g) = some hd ∧
        repo.findCommit hd = none)) →
      ∀ e, branch_group_to_branch identity g repo t ≠ Except.ok (some e)) ∧
    (∀ (bs : List GroupBranch) (e : BranchListing),
      e ∈ combine_branches bs repo t ↔
        ∃ p ∈ groupsOf repo.remotes bs,
          branch_group_to_branch p.1 p.2 repo t = Except.ok (some e)) := by
  refine ⟨?_, ?_, ?_⟩
  · intro e h
    rw [branch_group_to_branch] at h
    split at h
    · exact absurd h (by simp)
    · split at h
      · exact absurd h (by simp)
      · split at h
        · exact absurd h (by simp)
        · rename_i o1 mb hmb o2 ci hci
          simp only [Except.ok.injEq, Option.some.injEq] at h
          subst h
          refine ⟨fun vb hvb => ?_, fun hnone lb hlb => ?_, fun hnone hloc rb hrb => ?_⟩
          · simp only [headOfGroup, hvb, Option.some.injEq] at hmb
            simpa using hmb.symm
          · simp only [headOfGroup, hnone, hlb] at hmb
            simpa using hmb
          · simp only [headOfGroup, hnone, hloc, hrb, List.head?_nil] at hmb
            simpa using hmb
  · intro hfail e h
    rw [branch_group_to_branch] at h
    split at h
    · simp at h
    · rcases hfail with hnone | ⟨hd, hhd, hfc⟩
      · rw [hnone] at h
        simp at h
      · rw [hhd] at h
        simp only [hfc] at h
        simp at h
  · intro bs e
    rw [combine_branches, List.mem_filterMap]
    constructor
    · rintro ⟨p, hp, hfp⟩
      refine ⟨p, hp, ?_⟩
      revert hfp
      cases hr : branch_group_to_branch p.1 p.2 repo t with
      | error err => intro hfp; cases hfp
      | ok o => intro hfp; cases hfp; rfl
    · rintro ⟨p, hp, hr⟩
      exact ⟨p, hp, by rw [hr]⟩

/-- Witness for C2: in a group holding both a local reference (head 3) and a
virtual branch (head 9), the produced entry's head is the virtual branch's. -/
theorem c2_witness : entryW2.head = vbW2.head :=
  ((c2_head_priority "feature" groupW2 repoW2 targetW2).1 entryW2 rfl).1 vbW2 (by decide)

/-! Association-list lemmas about the branches map. -/

/-- Entries of a map with nodup keys are determined by their key. -/
theorem entry_eq_of_key_eq {bs : List (StackId × Stack)} (hnd : (bs.map (·.1)).Nodup)
    {p q : StackId × Stack} (hp : p ∈ bs) (hq : q ∈ bs) (hk : p.1 = q.1) : p = q :=
  List.inj_on_of_nodup_map hnd hp hq hk

/-- With nodup keys, `find?` by an entry's key returns that entry. -/
theorem find?_key_eq {bs : List (StackId × Stack)} (hnd : (bs.map (·.1)).Nodup)
    {p : StackId × Stack} (hp : p ∈ bs) :
    bs.find? (fun q => q.1 == p.1) = some p := by
  induction bs with
  | nil => cases hp
  | cons a t ih =>
    rcases List.mem_cons.mp hp with rfl | hpt
    · simp
    · have ha : a.1 ≠ p.1 := by
        intro hk
        have : p.1 ∈ t.map (·.1) := List.mem_map_of_mem _ hpt
        rw [List.map_cons, List.nodup_cons] at hnd
        exact hnd.1 (hk ▸ this)
      rw [List.map_cons, List.nodup_cons] at hnd
      simpa [List.find?_cons, ha] using ih hnd.2 hpt

/-- Looking up an entry of a well-formed document yields its value. -/
theorem findBranch_eq_of_mem {d : VirtualBranches} (hwf : DocWF d)
    {p : StackId × Stack} (hp : p ∈ d.branches) : findBranch d p.1 = some p.2 := by
  rw [findBranch, find?_key_eq hwf.1 hp]
  rfl

/-- A successful lookup produces an entry of the map. -/
theorem mem_of_findBranch {d : VirtualBranches} {k : StackId} {b : Stack}
    (h : findBranch d k = some b) : (k, b) ∈ d.branches := by
  rw [findBranch] at h
  cases hf : d.branches.find? (fun q => q.1 == k) with
  | none => rw [hf] at h; cases h
  | some q =>
    have hm := List.mem_of_find?_eq_some hf
    have hp : q.1 = k := by simpa using List.find?_some hf
    rw [hf] at h
    have hqb : q.2 = b := by simpa using h
    cases q
    cases hp
    cases hqb
    exact hm

/-- Membership of a key makes the insertion predicate fire. -/
theorem any_key_of_key_mem {bs : List (StackId × Stack)} {k : StackId}
    (h : k ∈ bs.map (·.1)) : bs.any (fun p => p.1 == k) = true := by
  rcases List.mem_map.mp h with ⟨p, hp, hk⟩
  exact List.any_eq_true.mpr ⟨p, hp, by simp [hk]⟩

/-- Variant of `find?_cons_of_pos` with the predicate explicit. -/
theorem find?_cons_pos' (p : StackId × Stack → Bool) (a : StackId × Stack)
    (t : List (StackId × Stack)) (h : p a = true) :
    List.find? p (a :: t) = some a := List.find?_cons_of_pos t (by simp [h])

/-- Variant of `find?_cons_of_neg` with the predicate explicit. -/
theorem find?_cons_neg' (p : StackId × Stack → Bool) (a : StackId × Stack)
    (t : List (StackId × Stack)) (h : p a = false) :
    List.find? p (a :: t) = List.find? p t := List.find?_cons_of_neg t (by simp [h])

/-- Replacement of the keyed entry is invisible to lookups of other keys. -/
theorem find?_map_replace_ne (bs : List (StackId × Stack)) (b : Stack) (k : StackId)
    (hk : k ≠ b.id) :
    (bs.map (fun p => if p.1 == b.id then (b.id, b) else p)).find? (fun p => p.1 == k)
      = bs.find? (fun p => p.1 == k) := by
  induction bs with
  | nil => rfl
  | cons a t ih =>
    rw [List.map_cons]
    by_cases ha : a.1 = b.id
    · rw [if_pos (by simpa using ha)]
      rw [find?_cons_neg' (fun p => p.1 == k) (b.id, b) _
        (by simp only [beq_eq_false_iff_ne]; exact fun h => hk h.symm)]
      rw [find?_cons_neg' (fun p => p.1 == k) a t
        (by simp only [ha, beq_eq_false_iff_ne]; exact fun h => hk h.symm)]
      exact ih
    · rw [if_neg (by simpa using ha)]
      by_cases hak : a.1 = k
      · rw [find?_cons_pos' (fun p => p.1 == k) a _ (by simp [hak]),
          find?_cons_pos' (fun p => p.1 == k) a t (by simp [hak])]
      · rw [find?_cons_neg' (fun p => p.1 == k) a _ (by simp [hak]),
          find?_cons_neg' (fun p => p.1 == k) a t (by simp [hak])]
        exact ih

/-- After replacement, looking up the inserted key finds the new entry. -/
theorem find?_map_replace_self (bs : List (StackId × Stack)) (b : Stack)
    (hany : bs.any (fun p => p.1 == b.id) = true) :
    (bs.map (fun p => if p.1 == b.id then (b.id, b) else p)).find? (fun p => p.1 == b.id)
      = some (b.id, b) := by
  induction bs with
  | nil => simp at hany
  | cons a t ih =>
    rw [List.map_cons]
    by_cases ha : a.1 = b.id
    · rw [if_pos (by simpa using ha)]
      rw [find?_cons_pos' (fun p => p.1 == b.id) (b.id, b) _ (by simp)]
    · rw [if_neg (by simpa using ha)]
      rw [find?_cons_neg' (fun p => p.1 == b.id) a _ (by simp [ha])]
      refine ih ?_
      rcases List.any_eq_true.mp hany with ⟨p, hp, hpb⟩
      rcases List.mem_cons.mp hp with rfl | hpt
      · exact absurd (by simpa using hpb) ha
      · exact List.any_eq_true.mpr ⟨p, hpt, hpb⟩

/-- Lookup after `set_branch`: the inserted id finds the new value, all other
ids are unaffected. -/
theorem findBranch_set_branch (d : VirtualBranches) (b : Stack) (k : StackId) :
    findBranch (set_branch d b) k = if k = b.id then some b else findBranch d k := by
  rw [findBranch, set_branch, insertEntry]
  by_cases hany : d.branches.any (fun p => p.1 == b.id) = true
  · rw [if_pos hany]
    by_cases hk : k = b.id
    · subst hk
      rw [find?_map_replace_self _ _ hany]
      simp
    · rw [find?_map_replace_ne _ _ _ hk, if_neg hk, findBranch]
  · rw [if_neg hany, List.find?_append]
    by_cases hk : k = b.id
    · subst hk
      have hnone : d.branches.find? (fun p => p.1 == b.id) = none :=
        List.find?_eq_none.mpr (fun p hp => by
          simpa using (List.any_eq_false.mp (Bool.eq_false_iff.mpr hany)) p hp)
      rw [hnone]
      simp
    · have hsing : ([(b.id, b)].find? (fun p => p.1 == k)) = none := by
        rw [find?_cons_neg' (fun p => p.1 == k) (b.id, b) []
          (by simp only [beq_eq_false_iff_ne]; exact fun h => hk h.symm)]
        rfl
      rw [hsing, if_neg hk, findBranch]
      cases d.branches.find? (fun p => p.1 == k) <;> rfl

/-- Keys after `set_branch` of an already-present id are unchanged. -/
theorem keys_set_branch_of_mem (d : VirtualBranches) (b : Stack)
    (hany : d.branches.any (fun p => p.1 == b.id) = true) :
    (set_branch d b).branches.map (·.1) = d.branches.map (·.1) := by
  rw [set_branch, insertEntry, if_pos hany, List.map_map]
  refine List.map_congr_left (fun p hp => ?_)
  by_cases hpb : p.1 = b.id
  · simp [hpb]
  · simp [hpb]

/-- `set_branch` preserves well-formedness of the document. -/
theorem docWF_set_branch {d : VirtualBranches} (hwf : DocWF d) (b : Stack) :
    DocWF (set_branch d b) := by
  by_cases hany : d.branches.any (fun p => p.1 == b.id) = true
  · constructor
    · rw [keys_set_branch_of_mem d b hany]
      exact hwf.1
    · intro p hp
      rw [set_branch, insertEntry, if_pos hany] at hp
      rcases List.mem_map.mp hp with ⟨q, hq, hfq⟩
      by_cases hqb : q.1 = b.id
      · rw [if_pos (by simpa using hqb)] at hfq
        rw [← hfq]
      · rw [if_neg (by simpa using hqb)] at hfq
        rw [← hfq]
        exact hwf.2 q hq
  · constructor
    · rw [set_branch, insertEntry, if_neg hany, List.map_append]
      rw [List.nodup_append]
      refine ⟨hwf.1, List.nodup_singleton _, fun k hk => ?_⟩
      have hb : b.id ∉ d.branches.map (·.1) := by
        intro hmem
        exact hany (any_key_of_key_mem hmem)
      simp only [List.map_cons, List.map_nil, List.mem_singleton]
      intro hk1
      exact hb (hk1 ▸ hk)
    · intro p hp
      rw [set_branch, insertEntry, if_neg hany] at hp
      rcases List.mem_append.mp hp with hp1 | hp2
      · exact hwf.2 p hp1
      · rcases List.mem_singleton.mp hp2 with rfl
        rfl

/-- The id of an order-updated stack is unchanged. -/
theorem applyOrder_id (q : Nat × Stack) : ({ q.2 with order := q.1 } : Stack).id = q.2.id :=
  rfl

/-- The update loop does not touch ids outside the snapshot. -/
theorem foldA_find_frame (pairs : List (Nat × Stack)) (d : VirtualBranches) (k : StackId)
    (h : ∀ q ∈ pairs, q.2.id ≠ k) :
    findBranch (pairs.foldl applyOrder d) k = findBranch d k := by
  induction pairs generalizing d with
  | nil => rfl
  | cons q rest ih =>
    rw [List.foldl_cons, ih _ (fun q' hq' => h q' (List.mem_cons_of_mem _ hq'))]
    rw [applyOrder, findBranch_set_branch]
    rw [if_neg (fun hc => h q (List.mem_cons_self q rest) hc.symm)]

/-- The update loop assigns each snapshot entry its enumerated index. -/
theorem foldA_find_hit (pairs : List (Nat × Stack)) (d : VirtualBranches)
    (hnd : (pairs.map (fun q => q.2.id)).Nodup) {i : Nat} {b : Stack}
    (hmem : (i, b) ∈ pairs) :
    findBranch (pairs.foldl applyOrder d) b.id = some { b with order := i } := by
  induction pairs generalizing d with
  | nil => cases hmem
  | cons q rest ih =>
    rw [List.map_cons, List.nodup_cons] at hnd
    rw [List.foldl_cons]
    rcases List.mem_cons.mp hmem with heq | hmem'
    · cases heq
      rw [foldA_find_frame rest _ _
        (fun q' hq' hc => hnd.1 (by rw [← hc]; exact List.mem_map_of_mem _ hq'))]
      rw [applyOrder, findBranch_set_branch, if_pos rfl]
    · exact ih _ hnd.2 hmem'

/-- The update loop leaves the key list unchanged when every updated id is
already present. -/
theorem foldA_keys (pairs : List (Nat × Stack)) (d : VirtualBranches)
    (hpres : ∀ q ∈ pairs, q.2.id ∈ d.branches.map (·.1)) :
    (pairs.foldl applyOrder d).branches.map (·.1) = d.branches.map (·.1) := by
  induction pairs generalizing d with
  | nil => rfl
  | cons q rest ih =>
    have hstep : (applyOrder d q).branches.map (·.1) = d.branches.map (·.1) :=
      keys_set_branch_of_mem d _ (any_key_of_key_mem (hpres q (List.mem_cons_self q rest)))
    rw [List.foldl_cons,
      ih _ (fun q' hq' => hstep ▸ hpres q' (List.mem_cons_of_mem _ hq')), hstep]

/-- The update loop preserves document well-formedness. -/
theorem foldA_wf (pairs : List (Nat × Stack)) {d : VirtualBranches} (hwf : DocWF d) :
    DocWF (pairs.foldl applyOrder d) := by
  induction pairs generalizing d with
  | nil => exact hwf
  | cons q rest ih => rw [List.foldl_cons]; exact ih (docWF_set_branch hwf _)

/-- Ids of the in-workspace branches of a well-formed document are distinct. -/
theorem ws_ids_nodup {d : VirtualBranches} (hwf : DocWF d) :
    (d.list_branches_in_workspace.map (·.id)).Nodup := by
  have hvals : d.list_all_branches.map (·.id) = d.branches.map (·.1) := by
    rw [VirtualBranches.list_all_branches, List.map_map]
    exact List.map_congr_left (fun p hp => hwf.2 p hp)
  have hsub : List.Sublist (d.list_branches_in_workspace.map (·.id))
      (d.list_all_branches.map (·.id)) :=
    List.Sublist.map _ (List.filter_sublist _)
  exact List.Nodup.sublist hsub (hvals ▸ hwf.1)

/-- Ids of the sorted in-workspace snapshot are distinct. -/
theorem sorted_ws_ids_nodup {d : VirtualBranches} (hwf : DocWF d) :
    ((sorted_by_order d.list_branches_in_workspace).map (·.id)).Nodup :=
  (((List.perm_insertionSort stackLE _).map (·.id)).nodup_iff).mpr (ws_ids_nodup hwf)

/-- Second components of the enumeration of a list have the same ids. -/
theorem enum_ids (l : List Stack) :
    l.enum.map (fun q => q.2.id) = l.map (·.id) := by
  have : (fun q : Nat × Stack => q.2.id) = (fun b : Stack => b.id) ∘ Prod.snd := rfl
  rw [this, ← List.map_map, List.enum_map_snd]

/-- Membership in an enumeration, phrased with `get`. -/
theorem mem_enum_iff {l : List Stack} {i : Nat} {b : Stack} :
    (i, b) ∈ l.enum ↔ ∃ h : i < l.length, l.get ⟨i, h⟩ = b := by
  rw [List.mk_mem_enum_iff_getElem?]
  exact List.getElem?_eq_some

/-- Rewriting a stack's order with its own order is the identity. -/
theorem stack_order_eta (b : Stack) : { b with order := b.order } = b := rfl

/-- Writing back a value that is already stored leaves the document
unchanged. -/
theorem set_branch_eq_self {d : VirtualBranches} {b : Stack} (hwf : DocWF d)
    (h : findBranch d b.id = some b) : set_branch d b = d := by
  have hmem : (b.id, b) ∈ d.branches := mem_of_findBranch h
  have hany : d.branches.any (fun p => p.1 == b.id) = true :=
    any_key_of_key_mem (List.mem_map_of_mem _ hmem)
  have hmap : d.branches.map (fun p => if p.1 == b.id then (b.id, b) else p)
      = d.branches := by
    have hcong : ∀ p ∈ d.branches,
        (if p.1 == b.id then (b.id, b) else p) = id p := by
      intro p hp
      by_cases hpb : p.1 = b.id
      · rw [if_pos (by simpa using hpb)]
        exact entry_eq_of_key_eq hwf.1 hmem hp (by simp [hpb])
      · rw [if_neg (by simpa using hpb)]
        rfl
    rw [List.map_congr_left hcong, List.map_id]
  rw [set_branch, insertEntry, if_pos hany, hmap]

/-- A pass of the update loop that assigns every entry its current order is
the identity on the document. -/
theorem foldA_fix (pairs : List (Nat × Stack)) (d : VirtualBranches) (hwf : DocWF d)
    (h : ∀ q ∈ pairs, findBranch d q.2.id = some { q.2 with order := q.1 }) :
    pairs.foldl applyOrder d = d := by
  induction pairs with
  | nil => rfl
  | cons q rest ih =>
    have hset : applyOrder d q = d :=
      set_branch_eq_self hwf (h q (List.mem_cons_self q rest))
    rw [List.foldl_cons, hset]
    exact ih (fun q' hq' => h q' (List.mem_cons_of_mem _ hq'))

/-- After `update_ordering`, the in-workspace branches are exactly the sorted
snapshot entries with their enumeration index as order. -/
theorem inWs_update_perm (d : VirtualBranches) (hwf : DocWF d) :
    ((update_ordering d).list_branches_in_workspace).Perm
      ((sorted_by_order d.list_branches_in_workspace).enum.map
        (fun q => { q.2 with order := q.1 })) := by
  have hnd_pairs : (((sorted_by_order d.list_branches_in_workspace).enum).map
      (fun q => q.2.id)).Nodup := by
    rw [enum_ids]; exact sorted_ws_ids_nodup hwf
  have hmem_s : ∀ q ∈ (sorted_by_order d.list_branches_in_workspace).enum,
      q.2 ∈ sorted_by_order d.list_branches_in_workspace := by
    intro q hq
    have h1 := List.mem_map_of_mem Prod.snd hq
    rwa [List.enum_map_snd] at h1
  have hpres : ∀ q ∈ (sorted_by_order d.list_branches_in_workspace).enum,
      q.2.id ∈ d.branches.map (·.1) := by
    intro q hq
    have hq3 : q.2 ∈ d.list_branches_in_workspace :=
      (List.mem_insertionSort stackLE).mp (hmem_s q hq)
    have hq4 : q.2 ∈ d.list_all_branches := List.mem_of_mem_filter hq3
    rcases List.mem_map.mp hq4 with ⟨p, hp, hpq⟩
    have hkey : q.2.id = p.1 := by rw [← hpq]; exact hwf.2 p hp
    rw [hkey]
    exact List.mem_map_of_mem _ hp
  have hwf1 : DocWF (update_ordering d) := foldA_wf _ hwf
  have hkeys : (update_ordering d).branches.map (·.1) = d.branches.map (·.1) :=
    foldA_keys _ _ hpres
  have hnd1 : ((update_ordering d).list_branches_in_workspace).Nodup := by
    have hids : (update_ordering d).list_all_branches.map (·.id)
        = (update_ordering d).branches.map (·.1) := by
      rw [VirtualBranches.list_all_branches, List.map_map]
      exact List.map_congr_left (fun p hp => hwf1.2 p hp)
    have hv : ((update_ordering d).list_all_branches).Nodup :=
      List.Nodup.of_map (fun b : Stack => b.id) (by rw [hids, hkeys]; exact hwf.1)
    exact hv.filter _
  have hndT : (((sorted_by_order d.list_branches_in_workspace).enum).map
      (fun q => { q.2 with order := q.1 })).Nodup := by
    apply List.Nodup.of_map (fun b : Stack => b.order)
    have hord : (((sorted_by_order d.list_branches_in_workspace).enum).map
        (fun q => { q.2 with order := q.1 })).map (fun b : Stack => b.order)
        = ((sorted_by_order d.list_branches_in_workspace).enum).map Prod.fst := by
      rw [List.map_map]
      exact List.map_congr_left (fun q _ => rfl)
    rw [hord, List.enum_map_fst]
    exact List.nodup_range _
  rw [List.perm_ext_iff_of_nodup hnd1 hndT]
  intro x
  constructor
  · intro hx
    have hxv : x ∈ (update_ordering d).list_all_branches := List.mem_of_mem_filter hx
    have hxw : x.in_workspace = true := (List.mem_filter.mp hx).2
    rcases List.mem_map.mp hxv with ⟨p, hp, hpx⟩
    have hfx : findBranch (update_ordering d) x.id = some x := by
      have h1 := findBranch_eq_of_mem hwf1 hp
      have h2 : p.1 = x.id := by rw [← hpx]; exact (hwf1.2 p hp).symm ▸ rfl
      rw [h2, hpx] at h1
      exact h1
    by_cases hid : x.id ∈ (sorted_by_order d.list_branches_in_workspace).map (·.id)
    · rcases List.mem_map.mp hid with ⟨y, hy, hyid⟩
      rcases List.mem_iff_getElem.mp hy with ⟨j, hj, hjy⟩
      have hjmem : (j, y) ∈ (sorted_by_order d.list_branches_in_workspace).enum :=
        mem_enum_iff.mpr ⟨hj, by simpa [List.get_eq_getElem] using hjy⟩
      have hfy := foldA_find_hit
        ((sorted_by_order d.list_branches_in_workspace).enum) d hnd_pairs hjmem
      rw [← hyid] at hfx
      have hxy : x = { y with order := j } := by
        have h3 := hfx.symm.trans hfy
        simpa using h3
      exact hxy ▸ List.mem_map_of_mem _ hjmem
    · exfalso
      have hframe := foldA_find_frame
        ((sorted_by_order d.list_branches_in_workspace).enum) d x.id
        (fun q hq hc => hid (by rw [← hc]; exact List.mem_map_of_mem _ (hmem_s q hq)))
      have hmemd : (x.id, x) ∈ d.branches := mem_of_findBranch (hframe ▸ hfx)
      have hxvd : x ∈ d.list_all_branches := List.mem_map_of_mem (·.2) hmemd
      have hxs : x ∈ sorted_by_order d.list_branches_in_workspace :=
        (List.mem_insertionSort stackLE).mpr (List.mem_filter.mpr ⟨hxvd, hxw⟩)
      exact hid (List.mem_map_of_mem (·.id) hxs)
  · intro hx
    rcases List.mem_map.mp hx with ⟨q, hq, hqx⟩
    have hq2 : q.2 ∈ sorted_by_order d.list_branches_in_workspace := hmem_s q hq
    have hq2w : q.2.in_workspace = true :=
      (List.mem_filter.mp ((List.mem_insertionSort stackLE).mp hq2)).2
    have hfq := foldA_find_hit
      ((sorted_by_order d.list_branches_in_workspace).enum) d hnd_pairs
      (show (q.1, q.2) ∈ _ from hq)
    have hmem1 := mem_of_findBranch hfq
    have hxv : x ∈ (update_ordering d).list_all_branches := by
      rw [← hqx]
      exact List.mem_map_of_mem (·.2) hmem1
    exact List.mem_filter.mpr ⟨hxv, by rw [← hqx]; exact hq2w⟩

/-- Claim C7: after `update_ordering`, the branch at position `i` of the
stable sort of the prior in-workspace branches stores order `i`; the multiset
of in-workspace orders is exactly 0..n−1; and `update_ordering` is idempotent
— a second invocation leaves the document (hence every order value)
unchanged. -/
theorem c7_update_ordering (d : VirtualBranches) (hwf : DocWF d) :
    (∀ i (h : i < (sorted_by_order d.list_branches_in_workspace).length),
      findBranch (update_ordering d)
          ((sorted_by_order d.list_branches_in_workspace).get ⟨i, h⟩).id
        = some { (sorted_by_order d.list_branches_in_workspace).get ⟨i, h⟩ with
            order := i }) ∧
    ((update_ordering d).list_branches_in_workspace.map (·.order)).Perm
      (List.range d.list_branches_in_workspace.length) ∧
    update_ordering (update_ordering d) = update_ordering d := by
  have hnd_pairs : (((sorted_by_order d.list_branches_in_workspace).enum).map
      (fun q => q.2.id)).Nodup := by
    rw [enum_ids]; exact sorted_ws_ids_nodup hwf
  have hwf1 : DocWF (update_ordering d) := foldA_wf _ hwf
  have hTord : (((sorted_by_order d.list_branches_in_workspace).enum).map
      (fun q => { q.2 with order := q.1 })).map (fun b : Stack => b.order)
      = List.range d.list_branches_in_workspace.length := by
    rw [List.map_map]
    have h1 : ((sorted_by_order d.list_branches_in_workspace).enum).map
        ((fun b : Stack => b.order) ∘ (fun q => { q.2 with order := q.1 }))
        = ((sorted_by_order d.list_branches_in_workspace).enum).map Prod.fst :=
      List.map_congr_left (fun q _ => rfl)
    rw [h1, List.enum_map_fst, sorted_by_order, List.length_insertionSort]
  refine ⟨?_, ?_, ?_⟩
  · intro i h
    exact foldA_find_hit _ _ hnd_pairs (mem_enum_iff.mpr ⟨h, rfl⟩)
  · have hperm := (inWs_update_perm d hwf).map (fun b : Stack => b.order)
    rwa [hTord] at hperm
  · have hpermU : (sorted_by_order
        (update_ordering d).list_branches_in_workspace).Perm
        (((sorted_by_order d.list_branches_in_workspace).enum).map
          (fun q => { q.2 with order := q.1 })) :=
      (List.perm_insertionSort stackLE _).trans (inWs_update_perm d hwf)
    have hsortU : (sorted_by_order
        (update_ordering d).list_branches_in_workspace).Sorted stackLE :=
      List.sorted_insertionSort stackLE _
    have hordEq : (sorted_by_order
        (update_ordering d).list_branches_in_workspace).map (fun b : Stack => b.order)
        = List.range d.list_branches_in_workspace.length := by
      refine @List.eq_of_perm_of_sorted ℕ (· ≤ ·) _ _ _
        ((hpermU.map _).trans (hTord ▸ List.Perm.refl _)) ?_ ?_
      · exact List.pairwise_map.mpr hsortU
      · exact List.pairwise_le_range _
    have hidx : ∀ q ∈ (sorted_by_order
        (update_ordering d).list_branches_in_workspace).enum, q.2.order = q.1 := by
      intro q hq
      rcases mem_enum_iff.mp (show (q.1, q.2) ∈ _ from hq) with ⟨h, hget⟩
      rw [List.get_eq_getElem] at hget
      have h2 : ((sorted_by_order
          (update_ordering d).list_branches_in_workspace).map
            (fun b : Stack => b.order))[q.1]? = some q.2.order := by
        rw [List.getElem?_map, List.getElem?_eq_getElem h]
        simp [hget]
      rw [hordEq] at h2
      have h3 : q.1 < d.list_branches_in_workspace.length := by
        have h4 : q.1 < (List.range d.list_branches_in_workspace.length).length := by
          have h5 := congrArg List.length hordEq
          rw [List.length_map] at h5
          rw [← h5]
          exact h
        rwa [List.length_range] at h4
      rw [List.getElem?_range h3] at h2
      simpa using h2.symm
    refine foldA_fix _ _ hwf1 (fun q hq => ?_)
    have hq2 : q.2 ∈ sorted_by_order (update_ordering d).list_branches_in_workspace := by
      have h1 := List.mem_map_of_mem Prod.snd hq
      rwa [List.enum_map_snd] at h1
    have hq2v : q.2 ∈ (update_ordering d).list_all_branches :=
      List.mem_of_mem_filter ((List.mem_insertionSort stackLE).mp hq2)
    rcases List.mem_map.mp hq2v with ⟨p, hp, hpq⟩
    have hfind : findBranch (update_ordering d) q.2.id = some q.2 := by
      have h1 := findBranch_eq_of_mem hwf1 hp
      have h2 : p.1 = q.2.id := by rw [← hpq]; exact (hwf1.2 p hp).symm ▸ rfl
      rw [h2, hpq] at h1
      exact h1
    have hou : q.2.order = q.1 := hidx q hq
    rw [← hou, stack_order_eta]
    exact hfind

/-- Characterization of the ids marked by the garbage-collection loop on
success: exactly the ids of listed branches satisfying the removal
condition. -/
theorem gcLoop_ok_mem {repo : Repo} {t : Target} :
    ∀ {l : List Stack} {ids : List StackId}, gcLoop repo t l = Except.ok ids →
      ∀ a, a ∈ ids ↔ ∃ b ∈ l, b.id = a ∧ gcRemovable repo t b := by
  intro l
  induction l with
  | nil =>
    intro ids h a
    rw [gcLoop] at h
    cases h
    simp
  | cons b rest ih =>
    intro ids h a
    rw [gcLoop] at h
    by_cases hwip : b.not_in_workspace_wip_change_id.isSome
    · rw [if_pos hwip] at h
      rw [ih h a]
      constructor
      · rintro ⟨b', hb', hid, hcond⟩
        exact ⟨b', List.mem_cons_of_mem _ hb', hid, hcond⟩
      · rintro ⟨b', hb', hid, hcond⟩
        rcases List.mem_cons.mp hb' with rfl | hb''
        · rw [hcond.1] at hwip
          cases hwip
        · exact ⟨b', hb'', hid, hcond⟩
    · rw [if_neg hwip] at h
      by_cases hfc : (repo.findCommit b.head).isNone
      · rw [if_pos hfc] at h
        cases hr : gcLoop repo t rest with
        | error e => rw [hr] at h; cases h
        | ok ids' =>
          rw [hr] at h
          simp only [Except.map] at h
          injection h with h'
          subst h'
          have hrem : gcRemovable repo t b :=
            ⟨Option.not_isSome_iff_eq_none.mp hwip,
              Or.inl (Option.isNone_iff_eq_none.mp hfc)⟩
          constructor
          · intro ha
            rcases List.mem_cons.mp ha with rfl | ha'
            · exact ⟨b, List.mem_cons_self b rest, rfl, hrem⟩
            · rcases (ih hr a).mp ha' with ⟨b', hb', hid, hcond⟩
              exact ⟨b', List.mem_cons_of_mem _ hb', hid, hcond⟩
          · rintro ⟨b', hb', hid, hcond⟩
            rcases List.mem_cons.mp hb' with rfl | hb''
            · rw [← hid]
              exact List.mem_cons_self _ _
            · exact List.mem_cons_of_mem _ ((ih hr a).mpr ⟨b', hb'', hid, hcond⟩)
      · rw [if_neg hfc] at h
        split at h
        · cases h
        · rename_i mb hmb
          by_cases hbm : (b.head == mb) = true
          · rw [if_pos hbm] at h
            cases hr : gcLoop repo t rest with
            | error e => rw [hr] at h; cases h
            | ok ids' =>
              rw [hr] at h
              simp only [Except.map] at h
              injection h with h'
              subst h'
              have hbm' : b.head = mb := by simpa using hbm
              have hrem : gcRemovable repo t b :=
                ⟨Option.not_isSome_iff_eq_none.mp hwip,
                  Or.inr (by rw [hmb, hbm'])⟩
              constructor
              · intro ha
                rcases List.mem_cons.mp ha with rfl | ha'
                · exact ⟨b, List.mem_cons_self b rest, rfl, hrem⟩
                · rcases (ih hr a).mp ha' with ⟨b', hb', hid, hcond⟩
                  exact ⟨b', List.mem_cons_of_mem _ hb', hid, hcond⟩
              · rintro ⟨b', hb', hid, hcond⟩
                rcases List.mem_cons.mp hb' with rfl | hb''
                · rw [← hid]
                  exact List.mem_cons_self _ _
                · exact List.mem_cons_of_mem _ ((ih hr a).mpr ⟨b', hb'', hid, hcond⟩)
          · rw [if_neg hbm] at h
            rw [ih h a]
            constructor
            · rintro ⟨b', hb', hid, hcond⟩
              exact ⟨b', List.mem_cons_of_mem _ hb', hid, hcond⟩
            · rintro ⟨b', hb', hid, hcond⟩
              rcases List.mem_cons.mp hb' with rfl | hb''
              · exfalso
                rcases hcond.2 with hnone | hsome
                · rw [hnone] at hfc
                  exact hfc rfl
                · rw [hmb] at hsome
                  have : mb = b'.head := by simpa using hsome
                  exact hbm (by simp [this])
              · exact ⟨b', hb'', hid, hcond⟩

/-- A branch value of a well-formed document equals the stored value of the
entry carrying its id. -/
theorem value_eq_of_mem {d : VirtualBranches} (hwf : DocWF d) {b : Stack}
    (hb : b ∈ d.list_all_branches) {p : StackId × Stack} (hp : p ∈ d.branches)
    (hid : b.id = p.1) : b = p.2 := by
  rcases List.mem_map.mp hb with ⟨q, hq, hqb⟩
  have hq1 : q.1 = p.1 := by
    rw [← hwf.2 q hq, hqb, hid]
  have := entry_eq_of_key_eq hwf.1 hq hp hq1
  rw [← hqb, this]

/-- Claim C1: on a successful run, `garbage_collect` keeps exactly the
entries that do not qualify for removal (not-in-workspace, no pending-work
marker, and unresolvable head or head equal to the merge base), removes
nothing else, and in particular never removes a branch carrying a
pending-work marker. -/
theorem c1_garbage_collect_exact (repo : Repo) (d d' : VirtualBranches) (t : Target)
    (w : Nat) (hwf : DocWF d) (ht : d.default_target = some t)
    (h : garbage_collect repo d = (d', w, none)) :
    (∀ p ∈ d.branches, (p ∈ d'.branches ↔ ¬ gcQualifies repo t p.2)) ∧
    (∀ p ∈ d'.branches, p ∈ d.branches) ∧
    (∀ p ∈ d.branches, p.2.not_in_workspace_wip_change_id.isSome = true →
      p ∈ d'.branches) := by
  have hq_of_mem : ∀ p ∈ d.branches, gcQualifies repo t p.2 →
      p.2 ∈ (d.list_all_branches.filter (fun b => !b.in_workspace)) := by
    intro p hp hq
    refine List.mem_filter.mpr ⟨List.mem_map_of_mem _ hp, ?_⟩
    rw [hq.1]
    rfl
  rw [garbage_collect.eq_def] at h
  split at h
  · rename_i hdt
    have hcontra : some t = none := ht.symm.trans hdt
    cases hcontra
  · rename_i target hdt
    have htt : target = t := by
      have h1 : some target = some t := hdt.symm.trans ht
      injection h1
    subst htt
    split at h
    · simp at h
    · rename_i ids hloop
      have hchar := gcLoop_ok_mem hloop
      by_cases hnil : ids.isEmpty
      · rw [if_pos hnil] at h
        simp only [Prod.mk.injEq] at h
        obtain ⟨hd', hw, -⟩ := h
        subst hd'
        have hids : ids = [] := List.isEmpty_iff.mp hnil
        refine ⟨fun p hp => ⟨fun _ hq => ?_, fun _ => hp⟩, fun p hp => hp,
          fun p hp _ => hp⟩
        have : p.2.id ∈ ids := (hchar p.2.id).mpr ⟨p.2, hq_of_mem p hp hq, rfl, hq.2⟩
        rw [hids] at this
        cases this
      · rw [if_neg hnil] at h
        simp only [Prod.mk.injEq] at h
        obtain ⟨hd', hw, -⟩ := h
        have hmem_iff : ∀ p ∈ d.branches, (p ∈ d'.branches ↔ ¬ p.1 ∈ ids) := by
          intro p hp
          rw [← hd']
          constructor
          · intro hm hin
            have := (List.mem_filter.mp hm).2
            rw [Bool.not_eq_true'] at this
            have hcontains : ids.contains p.1 = true := List.elem_iff.mpr hin
            rw [hcontains] at this
            cases this
          · intro hnin
            refine List.mem_filter.mpr ⟨hp, ?_⟩
            have : ids.contains p.1 = false := by
              rw [← Bool.not_eq_true]
              intro hc
              exact hnin (List.elem_iff.mp hc)
            rw [this]
            rfl
        refine ⟨fun p hp => ?_, fun p hp => ?_, fun p hp hwip => ?_⟩
        · rw [hmem_iff p hp]
          constructor
          · intro hnin hq
            exact hnin ((hchar p.1).mpr ⟨p.2, hq_of_mem p hp hq, hwf.2 p hp, hq.2⟩)
          · intro hnq hin
            rcases (hchar p.1).mp hin with ⟨b, hbf, hid, hrem⟩
            have hbv : b ∈ d.list_all_branches := List.mem_of_mem_filter hbf
            have hbp : b = p.2 := value_eq_of_mem hwf hbv hp hid
            have hws : b.in_workspace = false := by
              have := (List.mem_filter.mp hbf).2
              rwa [Bool.not_eq_true'] at this
            exact hnq ⟨hbp ▸ hws, hbp ▸ hrem⟩
        · rw [← hd'] at hp
          exact List.mem_of_mem_filter hp
        · rw [hmem_iff p hp]
          intro hin
          rcases (hchar p.1).mp hin with ⟨b, hbf, hid, hrem⟩
          have hbv : b ∈ d.list_all_branches := List.mem_of_mem_filter hbf
          have hbp : b = p.2 := value_eq_of_mem hwf hbv hp hid
          rw [← hbp, hrem.1] at hwip
          simp at hwip

/-- Witness for C1: on a concrete document, garbage collection keeps exactly
the non-qualifying entries — the pending-work branch survives although its
head is unresolvable, while the broken-head and merge-base branches go. -/
theorem c1_witness : (1, bW1) ∈ dW1'.branches :=
  (c1_garbage_collect_exact repoW1 dW1 dW1' tW1 1 (by decide) (by decide)
      (by decide)).2.2 (1, bW1) (by decide) (by decide)

/-- Witness for C7: a second `update_ordering` on a concrete document (with
an order tie) changes nothing. -/
theorem c7_witness : update_ordering (update_ordering dW7) = update_ordering dW7 :=
  (c7_update_ordering dW7 (by decide)).2.2

/-- Claim C10: `garbage_collect` performs at most one write; when it reports
an error the document is unchanged and nothing was written, and when no
branch qualifies for removal the document is likewise unchanged with no
write. -/
theorem c10_gc_single_write (repo : Repo) (d : VirtualBranches) :
    (garbage_collect repo d).2.1 ≤ 1 ∧
    ((garbage_collect repo d).2.2.isSome = true →
      (garbage_collect repo d).1 = d ∧ (garbage_collect repo d).2.1 = 0) ∧
    (∀ t, d.default_target = some t →
      (∀ b ∈ d.list_all_branches, ¬ gcQualifies repo t b) →
      (garbage_collect repo d).1 = d ∧ (garbage_collect repo d).2.1 = 0) := by
  cases hdt : get_default_target d with
  | none =>
    refine ⟨?_, ?_, ?_⟩
    · simp [garbage_collect, hdt]
    · simp [garbage_collect, hdt]
    · intro t htt _
      have hcontra : some t = none := htt.symm.trans hdt
      cases hcontra
  | some target =>
    cases hloop : gcLoop repo target (d.list_all_branches.filter (fun b => !b.in_workspace)) with
    | error e =>
      refine ⟨?_, ?_, ?_⟩
      · simp [garbage_collect, hdt, hloop]
      · simp [garbage_collect, hdt, hloop]
      · intro t _ _
        constructor
        · simp [garbage_collect, hdt, hloop]
        · simp [garbage_collect, hdt, hloop]
    | ok ids =>
      by_cases hnil : ids.isEmpty
      · refine ⟨?_, ?_, ?_⟩
        · simp [garbage_collect, hdt, hloop, hnil]
        · simp [garbage_collect, hdt, hloop, hnil]
        · intro t _ _
          constructor
          · simp [garbage_collect, hdt, hloop, hnil]
          · simp [garbage_collect, hdt, hloop, hnil]
      · refine ⟨?_, ?_, ?_⟩
        · simp [garbage_collect, hdt, hloop, hnil]
        · simp [garbage_collect, hdt, hloop, hnil]
        · intro t htt hnone
          exfalso
          have htt' : target = t := by
            have h1 : some target = some t := hdt.symm.trans htt
            injection h1
          subst htt'
          have hne : ids ≠ [] := by
            intro hc
            rw [hc] at hnil
            exact hnil rfl
          rcases List.exists_mem_of_ne_nil ids hne with ⟨a, ha⟩
          rcases (gcLoop_ok_mem hloop a).mp ha with ⟨b, hbf, _, hrem⟩
          have hbv : b ∈ d.list_all_branches := List.mem_of_mem_filter hbf
          have hws : b.in_workspace = false := by
            have := (List.mem_filter.mp hbf).2
            rwa [Bool.not_eq_true'] at this
          exact hnone b hbv ⟨hws, hrem⟩

/-- Witness for C10: on a concrete document where nothing qualifies, garbage
collection leaves the document unchanged and performs no write. -/
theorem c10_witness :
    (garbage_collect repoW1 dW10).1 = dW10 ∧ (garbage_collect repoW1 dW10).2.1 = 0 :=
  (c10_gc_single_write repoW1 dW10).2.2 tW1 rfl (by decide)

end GitButler
